import Mathlib

/-!
Verification of the roget word-guessing core.

A shallow embedding of the feedback-mask engine (`Correctness::compute`,
`Guess::matches`, `PackedCorrectness` from `src/lib.rs`) and of the
entropy-based guesser (`Escore` from `src/algorithms/escore.rs`).

Words are modelled as lists of letter bytes (`List Nat`); the game fixes
`WORD_LENGTH = 5` lowercase ASCII letters.  The Rust `misplaced` tally,
an array indexed by `letter - b'a'`, is modelled as a total map keyed by
the letter byte itself: on the lowercase bytes reachable in the game the
reindexing `b - b'a'` is injective, so the two are equivalent.
Floating-point (`f64`) arithmetic is modelled over an arbitrary linear
ordered field together with uninterpreted functions for `ln`, `log2` and
`exp`; decimal literals are read at their exact decimal value.
-/

namespace Roget

/-- Letters are byte values (`u8` cast up as needed by the source). -/
abbrev Letter := Nat

/-- A word is its list of letter bytes.  The game only ever uses
five-letter lowercase words. -/
abbrev Word := List Letter

/-- Source `src/lib.rs`: `pub const WORD_LENGTH: usize = 5;` -/
def WORD_LENGTH : Nat := 5

/-- Source `src/lib.rs`: `enum Correctness { Correct, Misplaced, Wrong }`. -/
inductive Correctness where
  | Correct
  | Misplaced
  | Wrong
deriving DecidableEq, Repr, Fintype

namespace Correctness

/-- First pass of `Correctness::compute`: the mask entry for each position,
`Correct` where the answer and guess letters agree and `Wrong` otherwise
(the source initialises the whole array to `Wrong` and overwrites the
matching positions). -/
def mask1 : Word → Word → List Correctness
  | a :: as, g :: gs => (if a = g then Correctness.Correct else Correctness.Wrong) :: mask1 as gs
  | _, _ => []

/-- First pass of `Correctness::compute`, tally component: for each letter,
how many times it occurs in the answer at a position whose letters do not
match (the source's `misplaced` array, keyed here by the letter byte). -/
def tally1 : Word → Word → Letter → Nat
  | a :: as, g :: gs, l =>
      (if a = g then 0 else if a = l then 1 else 0) + tally1 as gs l
  | _, _, _ => 0

/-- Second pass of `Correctness::compute`: walk the guess together with the
pass-1 mask; a `Wrong` entry whose guess letter still has a positive tally
becomes `Misplaced` and consumes one tally unit.  Mask entries beyond the
guess (impossible at the fixed length) are left unchanged, mirroring the
in-place update of the source. -/
def pass2 : Word → List Correctness → (Letter → Nat) → List Correctness
  | g :: gs, c :: cs, t =>
      if c = Correctness.Wrong ∧ 0 < t g then
        Correctness.Misplaced :: pass2 gs cs (fun l => if l = g then t l - 1 else t l)
      else
        c :: pass2 gs cs t
  | _, cs, _ => cs

/-- Model of `Correctness::compute(answer, guess)` from `src/lib.rs`: the two-pass
feedback-mask computation. -/
def compute (answer guess : Word) : List Correctness :=
  pass2 guess (mask1 answer guess) (tally1 answer guess)

/-- Model of `Correctness::is_misplaced(letter, answer, used)` from `src/lib.rs`:
find the first not-yet-used position of `answer` holding `letter`; mark it
used and report success, else report failure.  Returns the flag together
with the updated `used` array. -/
def is_misplaced (letter : Letter) : Word → List Bool → Bool × List Bool
  | a :: as, u :: us =>
      if a = letter ∧ u = false then (true, true :: us)
      else ((is_misplaced letter as us).1, u :: (is_misplaced letter as us).2)
  | _, us => (false, us)

end Correctness

/-- Source `src/lib.rs`: `struct Guess { word, mask }` — a historical guess and the
feedback it received. -/
structure Guess where
  word : Word
  mask : List Correctness
deriving DecidableEq, Repr

namespace Guess

/-- First loop of `Guess::matches`: check every position where the
candidate letter equals the guess letter is masked `Correct` and no other
position is, recording the matching positions in the `used` array
(initially all `false`).  `none` models the early `return false`. -/
def matchesPass1 : Word → Word → List Correctness → Option (List Bool)
  | a :: as, g :: gs, m :: ms =>
      if a = g then
        if m = Correctness.Correct then (matchesPass1 as gs ms).map (true :: ·) else none
      else
        if m = Correctness.Correct then none else (matchesPass1 as gs ms).map (false :: ·)
  | _, _, _ => some []

/-- Second loop of `Guess::matches`: for every non-`Correct` mask entry,
`is_misplaced` on the candidate must agree with the entry being
`Misplaced`, consuming candidate positions as it goes. -/
def matchesPass2 (answer : Word) : Word → List Correctness → List Bool → Bool
  | g :: gs, e :: es, used =>
      if e = Correctness.Correct then matchesPass2 answer gs es used
      else
        let r := Correctness.is_misplaced g answer used
        if r.1 = decide (e = Correctness.Misplaced) then matchesPass2 answer gs es r.2
        else false
  | _, _, _ => true

/-- Model of `Guess::matches(&self, word)` from `src/lib.rs`: could `word` be the
hidden answer given that `self.word` produced `self.mask`?  (`matches` is
reserved syntax in Lean, hence the name `matchesWord`.) -/
def matchesWord (self : Guess) (word : Word) : Bool :=
  match matchesPass1 word self.word self.mask with
  | none => false
  | some used => matchesPass2 word self.word self.mask used

end Guess

/-! Section: equivalence of `Guess::matches` with `Correctness::compute`

The bridge invariant: at any point of the second loop of `matches`, the
number of not-yet-used positions of the candidate holding a given letter
equals the `misplaced` tally that `compute` would hold at the same point. -/

namespace Correctness

/-- How many not-yet-used positions of `w` hold the letter `l`. -/
def availCount : Word → List Bool → Letter → Nat
  | a :: as, u :: us, l => (if a = l ∧ u = false then 1 else 0) + availCount as us l
  | _, _, _ => 0

/-- The `used` array after pass 1 of `matches`: `true` exactly at the
positions where candidate and guess letters agree. -/
def usedInit : Word → Word → List Bool
  | a :: as, g :: gs => decide (a = g) :: usedInit as gs
  | _, _ => []

lemma is_misplaced_fst (l : Letter) :
    ∀ (w : Word) (us : List Bool),
      ((is_misplaced l w us).1 = true ↔ 0 < availCount w us l)
  | [], us => by simp [is_misplaced, availCount]
  | _ :: _, [] => by simp [is_misplaced, availCount]
  | a :: as, u :: us => by
    by_cases h : a = l ∧ u = false
    · simp [is_misplaced, availCount, h]
    · simp only [is_misplaced, if_neg h, availCount]
      rw [is_misplaced_fst l as us]
      simp [h]

lemma is_misplaced_of_false (l : Letter) :
    ∀ (w : Word) (us : List Bool),
      (is_misplaced l w us).1 = false → (is_misplaced l w us).2 = us
  | [], us => by simp [is_misplaced]
  | _ :: _, [] => by simp [is_misplaced]
  | a :: as, u :: us => by
    by_cases h : a = l ∧ u = false
    · simp [is_misplaced, h]
    · simp only [is_misplaced, if_neg h]
      intro hf
      rw [is_misplaced_of_false l as us hf]

lemma is_misplaced_avail (l : Letter) :
    ∀ (w : Word) (us : List Bool),
      (is_misplaced l w us).1 = true →
      ∀ l', availCount w (is_misplaced l w us).2 l' =
        if l' = l then availCount w us l' - 1 else availCount w us l'
  | [], us => by simp [is_misplaced]
  | _ :: _, [] => by simp [is_misplaced]
  | a :: as, u :: us => by
    by_cases h : a = l ∧ u = false
    · obtain ⟨ha, hu⟩ := h
      subst ha
      subst hu
      intro _ l'
      have hc : a = a ∧ false = false := ⟨rfl, rfl⟩
      simp only [is_misplaced, if_pos hc, availCount]
      by_cases hl : l' = a
      · subst hl
        simp
      · have hz : ¬(a = l' ∧ false = false) := fun hx => hl hx.1.symm
        have hz2 : ¬a = l' := fun he => hl he.symm
        simp [if_neg hz, hl, hz2]
    · intro ht l'
      simp only [is_misplaced, if_neg h] at ht ⊢
      have hpos : 0 < availCount as us l := (is_misplaced_fst l as us).mp ht
      simp only [availCount]
      rw [is_misplaced_avail l as us ht l']
      by_cases hl : l' = l
      · subst hl
        by_cases hc : a = l' ∧ u = false
        · simp only [if_pos hc, eq_self_iff_true, if_true]
          omega
        · simp only [if_neg hc, eq_self_iff_true, if_true]
          omega
      · simp only [if_neg hl]

lemma tally1_eq_availCount :
    ∀ (w g : Word) (l : Letter), tally1 w g l = availCount w (usedInit w g) l
  | [], g, l => by cases g <;> simp [tally1, availCount, usedInit]
  | _ :: _, [], l => by simp [tally1, availCount, usedInit]
  | a :: as, b :: gs, l => by
    simp only [tally1, availCount, usedInit]
    rw [tally1_eq_availCount as gs l]
    by_cases h : a = b <;> by_cases hl : a = l <;> simp [h, hl]

lemma pass2_length :
    ∀ (gs : Word) (cs : List Correctness) (t : Letter → Nat),
      (pass2 gs cs t).length = cs.length
  | [], cs, t => by simp [pass2]
  | g :: gs, [], t => by simp [pass2]
  | g :: gs, c :: cs, t => by
    by_cases h : c = Correctness.Wrong ∧ 0 < t g
    · simp only [pass2, if_pos h, List.length_cons, pass2_length]
    · simp only [pass2, if_neg h, List.length_cons, pass2_length]

lemma mask1_not_misplaced :
    ∀ (w g : Word) (x : Correctness), x ∈ mask1 w g → x ≠ Correctness.Misplaced
  | a :: as, b :: gs, x, hx => by
    simp only [mask1, List.mem_cons] at hx
    rcases hx with hx | hx
    · subst hx
      by_cases h : a = b <;> simp [h]
    · exact mask1_not_misplaced as gs x hx
  | [], g, x, hx => by simp [mask1] at hx
  | a :: as, [], x, hx => by simp [mask1] at hx

lemma mask1_length : ∀ (w g : Word), w.length = g.length →
    (mask1 w g).length = g.length
  | [], [], _ => rfl
  | a :: as, b :: gs, h => by
    simp only [mask1, List.length_cons]
    exact congrArg Nat.succ (mask1_length as gs (Nat.succ_injective h))

/-- Pass 2 of `compute` never touches whether a position is `Correct`:
`Correct` entries are preserved and `Wrong` entries become `Misplaced` or
stay `Wrong`. -/
lemma pass2_correct_agree :
    ∀ (gs : Word) (cs : List Correctness) (t : Letter → Nat),
      List.Forall₂ (fun c o => (c = Correctness.Correct ↔ o = Correctness.Correct))
        cs (pass2 gs cs t)
  | [], cs, t => by
    simp only [pass2]
    exact (List.forall₂_same).2 (fun a _ => Iff.rfl)
  | g :: gs, [], t => by
    simp only [pass2]
    exact List.Forall₂.nil
  | g :: gs, c :: cs, t => by
    by_cases h : c = Correctness.Wrong ∧ 0 < t g
    · simp only [pass2, if_pos h]
      exact List.Forall₂.cons (by simp [h.1]) (pass2_correct_agree gs cs _)
    · simp only [pass2, if_neg h]
      exact List.Forall₂.cons Iff.rfl (pass2_correct_agree gs cs t)

end Correctness

namespace Guess

/-- If pass 1 of `matches` succeeds, the produced `used` array marks the
positions with agreeing letters, and the claimed mask has `Correct`
exactly where the pass-1 mask of `compute` does. -/
lemma matchesPass1_some :
    ∀ (w g : Word) (m : List Correctness) (u : List Bool),
      w.length = g.length → g.length = m.length →
      matchesPass1 w g m = some u →
      u = Correctness.usedInit w g ∧
      List.Forall₂ (fun c e => c ≠ Correctness.Misplaced ∧
          (c = Correctness.Correct ↔ e = Correctness.Correct))
        (Correctness.mask1 w g) m
  | [], [], [], u, _, _, h => by
    simp only [matchesPass1, Option.some.injEq] at h
    subst h
    exact ⟨rfl, List.Forall₂.nil⟩
  | a :: as, b :: gs, e :: ms, u, hw, hg, h => by
    have hw' : as.length = gs.length := Nat.succ_injective hw
    have hg' : gs.length = ms.length := Nat.succ_injective hg
    by_cases hab : a = b
    · simp only [matchesPass1, if_pos hab] at h
      by_cases he : e = Correctness.Correct
      · simp only [if_pos he, Option.map_eq_some'] at h
        obtain ⟨u', hu', rfl⟩ := h
        obtain ⟨h1, h2⟩ := matchesPass1_some as gs ms u' hw' hg' hu'
        subst h1
        refine ⟨by simp [Correctness.usedInit, hab], ?_⟩
        simp only [Correctness.mask1, if_pos hab]
        exact List.Forall₂.cons (by simp [he]) h2
      · simp [if_neg he] at h
    · simp only [matchesPass1, if_neg hab] at h
      by_cases he : e = Correctness.Correct
      · simp [if_pos he] at h
      · simp only [if_neg he, Option.map_eq_some'] at h
        obtain ⟨u', hu', rfl⟩ := h
        obtain ⟨h1, h2⟩ := matchesPass1_some as gs ms u' hw' hg' hu'
        subst h1
        refine ⟨by simp [Correctness.usedInit, hab], ?_⟩
        simp only [Correctness.mask1, if_neg hab]
        refine List.Forall₂.cons ?_ h2
        constructor
        · simp
        · simp only [iff_false_intro he, iff_false]
          simp
  | [], b :: gs, m, u, hw, _, _ => by simp at hw
  | a :: as, [], m, u, hw, _, _ => by simp at hw
  | a :: as, b :: gs, [], u, _, hg, _ => by simp at hg

/-- Conversely, if the claimed mask has `Correct` exactly at the agreeing
positions, pass 1 of `matches` succeeds with the canonical `used` array. -/
lemma matchesPass1_of_agree :
    ∀ (w g : Word) (m : List Correctness),
      List.Forall₂ (fun c e => (c = Correctness.Correct ↔ e = Correctness.Correct))
        (Correctness.mask1 w g) m →
      matchesPass1 w g m = some (Correctness.usedInit w g)
  | [], [], m, h => by
    simp only [Correctness.mask1] at h
    cases h
    simp [matchesPass1, Correctness.usedInit]
  | [], b :: gs, m, h => by
    simp only [Correctness.mask1] at h
    cases h
    simp [matchesPass1, Correctness.usedInit]
  | a :: as, [], m, h => by
    simp only [Correctness.mask1] at h
    cases h
    simp [matchesPass1, Correctness.usedInit]
  | a :: as, b :: gs, m, h => by
    by_cases hab : a = b
    · simp only [Correctness.mask1, if_pos hab] at h
      cases h with
      | cons hhead htail =>
        have he : _ = Correctness.Correct := hhead.1 rfl
        simp only [matchesPass1, if_pos hab, if_pos he,
          matchesPass1_of_agree as gs _ htail, Option.map_some',
          Correctness.usedInit, hab, decide_eq_true_eq]
        simp [hab]
    · simp only [Correctness.mask1, if_neg hab] at h
      cases h with
      | cons hhead htail =>
        have he : ¬(_ = Correctness.Correct) := fun hx => by
          have := hhead.2 hx
          exact absurd this (by simp)
        simp only [matchesPass1, if_neg hab, if_neg he,
          matchesPass1_of_agree as gs _ htail, Option.map_some',
          Correctness.usedInit]
        simp [hab]

/-- The bridge between the second loops of `matches` and of `compute`:
whenever the `misplaced` tally agrees with the count of not-yet-used
candidate positions per letter, the `matches` loop accepts the claimed
mask entries precisely when the `compute` loop reproduces them. -/
lemma matchesPass2_bridge (w : Word) :
    ∀ (gs : Word) (cs ms : List Correctness) (used : List Bool) (t : Letter → Nat),
      List.Forall₂ (fun c e => c ≠ Correctness.Misplaced ∧
          (c = Correctness.Correct ↔ e = Correctness.Correct)) cs ms →
      gs.length = cs.length →
      (∀ l, t l = Correctness.availCount w used l) →
      (matchesPass2 w gs ms used = true ↔ Correctness.pass2 gs cs t = ms)
  | [], cs, ms, used, t, hrel, hlen, _ => by
    have hcs : cs = [] := List.length_eq_zero.1 hlen.symm
    subst hcs
    cases hrel
    simp [matchesPass2, Correctness.pass2]
  | g :: gs, [], ms, used, t, hrel, hlen, _ => by simp at hlen
  | g :: gs, c :: cs, ms, used, t, hrel, hlen, hinv => by
    cases hrel with
    | cons hhead htail =>
      rename_i e ms'
      obtain ⟨hnm, hiff⟩ := hhead
      have hlen' : gs.length = cs.length := Nat.succ_injective hlen
      by_cases he : e = Correctness.Correct
      · have hc : c = Correctness.Correct := hiff.2 he
        subst he
        subst hc
        simp [matchesPass2, Correctness.pass2,
          matchesPass2_bridge w gs cs ms' used t htail hlen' hinv]
      · have hc : c = Correctness.Wrong := by
          cases c with
          | Correct => exact absurd (hiff.1 rfl) he
          | Misplaced => exact absurd rfl hnm
          | Wrong => rfl
        subst hc
        by_cases hpos : 0 < t g
        · have havail : 0 < Correctness.availCount w used g := by
            rw [← hinv g]; exact hpos
          have hfst : (Correctness.is_misplaced g w used).1 = true :=
            (Correctness.is_misplaced_fst g w used).2 havail
          by_cases hm : e = Correctness.Misplaced
          · subst hm
            have hinv' : ∀ l, (if l = g then t l - 1 else t l) =
                Correctness.availCount w (Correctness.is_misplaced g w used).2 l := by
              intro l
              rw [Correctness.is_misplaced_avail g w used hfst l]
              by_cases hl : l = g
              · subst hl
                simp [hinv l]
              · simp [hl, hinv l]
            simp [matchesPass2, Correctness.pass2, hfst, hpos,
              matchesPass2_bridge w gs cs ms' (Correctness.is_misplaced g w used).2
                (fun l => if l = g then t l - 1 else t l) htail hlen' hinv']
          · have he2 : e = Correctness.Wrong := by
              cases e with
              | Correct => exact absurd rfl he
              | Misplaced => exact absurd rfl hm
              | Wrong => rfl
            subst he2
            simp [matchesPass2, Correctness.pass2, hfst, hpos]
        · have havail : ¬(0 < Correctness.availCount w used g) := by
            rw [← hinv g]; exact hpos
          have hfst : (Correctness.is_misplaced g w used).1 = false := by
            cases hx : (Correctness.is_misplaced g w used).1 with
            | false => rfl
            | true =>
              exact absurd ((Correctness.is_misplaced_fst g w used).1 hx) havail
          have hused : (Correctness.is_misplaced g w used).2 = used :=
            Correctness.is_misplaced_of_false g w used hfst
          by_cases hm : e = Correctness.Misplaced
          · subst hm
            simp [matchesPass2, Correctness.pass2, hfst, hpos]
          · have he2 : e = Correctness.Wrong := by
              cases e with
              | Correct => exact absurd rfl he
              | Misplaced => exact absurd rfl hm
              | Wrong => rfl
            subst he2
            simp [matchesPass2, Correctness.pass2, hfst, hpos, hused,
              matchesPass2_bridge w gs cs ms' used t htail hlen' hinv]

end Guess

/-- Claim C1, main equivalence: for five-letter lowercase words `w`
(the guess) and `c` (the candidate) and any five-entry mask `m`,
`Guess::matches {word := w, mask := m} c` holds exactly when
`Correctness::compute c w = m`; in particular a guess always matches the
answer that produced its mask. -/
theorem matchesWord_iff_compute (w c : Word) (m : List Correctness)
    (hw : w.length = 5) (hc : c.length = 5) (hm : m.length = 5) :
    (Guess.matchesWord ⟨w, m⟩ c = true ↔ Correctness.compute c w = m) := by
  constructor
  · intro h
    unfold Guess.matchesWord at h
    cases hp : Guess.matchesPass1 c w m with
    | none => rw [hp] at h; exact absurd h (by simp)
    | some u =>
      rw [hp] at h
      obtain ⟨hu, hrel⟩ := Guess.matchesPass1_some c w m u
        (hc.trans hw.symm) (hw.trans hm.symm) hp
      subst hu
      have hlen : w.length = (Correctness.mask1 c w).length :=
        (Correctness.mask1_length c w (hc.trans hw.symm)).symm ▸ hw ▸ rfl
      exact (Guess.matchesPass2_bridge c w (Correctness.mask1 c w) m
        (Correctness.usedInit c w) (Correctness.tally1 c w) hrel
        (by rw [Correctness.mask1_length c w (hc.trans hw.symm)])
        (Correctness.tally1_eq_availCount c w)).1 h
  · intro h
    have hagree : List.Forall₂
        (fun x e => (x = Correctness.Correct ↔ e = Correctness.Correct))
        (Correctness.mask1 c w) m := by
      have := Correctness.pass2_correct_agree w (Correctness.mask1 c w)
        (Correctness.tally1 c w)
      rw [show Correctness.pass2 w (Correctness.mask1 c w) (Correctness.tally1 c w)
        = Correctness.compute c w from rfl, h] at this
      exact this
    have hp := Guess.matchesPass1_of_agree c w m hagree
    unfold Guess.matchesWord
    rw [hp]
    have hrel : List.Forall₂ (fun x e => x ≠ Correctness.Misplaced ∧
        (x = Correctness.Correct ↔ e = Correctness.Correct))
        (Correctness.mask1 c w) m :=
      (List.forall₂_and_left _ _).2
        ⟨Correctness.mask1_not_misplaced c w, hagree⟩
    exact (Guess.matchesPass2_bridge c w (Correctness.mask1 c w) m
      (Correctness.usedInit c w) (Correctness.tally1 c w) hrel
      (by rw [Correctness.mask1_length c w (hc.trans hw.symm)])
      (Correctness.tally1_eq_availCount c w)).2 h

lemma compute_length (answer guess : Word) (h : answer.length = guess.length) :
    (Correctness.compute answer guess).length = guess.length := by
  unfold Correctness.compute
  rw [Correctness.pass2_length, Correctness.mask1_length answer guess h]

/-- Claim C1: For every pair of 5-letter lowercase words `w` (the guess
word) and `c` (the candidate) and every 5-element correctness mask `m`,
`Guess::matches {word := w, mask := m} c` returns `true` exactly when
`Correctness::compute c w = m`; in particular
`matches {word := w, mask := compute c w} c` is `true`, and `matches`
returns `false` for any candidate whose computed mask differs from `m`. -/
theorem claim_C1_matches_iff_compute (w c : Word) (m : List Correctness)
    (hw5 : w.length = 5) (hc5 : c.length = 5) (hm5 : m.length = 5)
    (hwlc : ∀ x ∈ w, 97 ≤ x ∧ x ≤ 122) (hclc : ∀ x ∈ c, 97 ≤ x ∧ x ≤ 122) :
    (Guess.matchesWord ⟨w, m⟩ c = true ↔ Correctness.compute c w = m) ∧
    Guess.matchesWord ⟨w, Correctness.compute c w⟩ c = true ∧
    (Correctness.compute c w ≠ m → Guess.matchesWord ⟨w, m⟩ c = false) := by
  have hiff := matchesWord_iff_compute w c m hw5 hc5 hm5
  refine ⟨hiff, ?_, ?_⟩
  · have hlen : (Correctness.compute c w).length = 5 := by
      rw [compute_length c w (hc5.trans hw5.symm)]
      exact hw5
    exact (matchesWord_iff_compute w c (Correctness.compute c w) hw5 hc5 hlen).2 rfl
  · intro hne
    cases hx : Guess.matchesWord ⟨w, m⟩ c with
    | false => rfl
    | true => exact absurd (hiff.1 hx) hne

/-- Witness for C1, at the repository's own repeated-letter test vector:
guess "ccaac" against answer "aabbb" yields mask `[W, W, M, M, W]`. -/
theorem claim_C1_witness :
    (Guess.matchesWord ⟨[99, 99, 97, 97, 99],
        [Correctness.Wrong, Correctness.Wrong, Correctness.Misplaced,
         Correctness.Misplaced, Correctness.Wrong]⟩ [97, 97, 98, 98, 98] = true ↔
      Correctness.compute [97, 97, 98, 98, 98] [99, 99, 97, 97, 99] =
        [Correctness.Wrong, Correctness.Wrong, Correctness.Misplaced,
         Correctness.Misplaced, Correctness.Wrong]) ∧
    Guess.matchesWord ⟨[99, 99, 97, 97, 99],
        Correctness.compute [97, 97, 98, 98, 98] [99, 99, 97, 97, 99]⟩
      [97, 97, 98, 98, 98] = true ∧
    (Correctness.compute [97, 97, 98, 98, 98] [99, 99, 97, 97, 99] ≠
        [Correctness.Wrong, Correctness.Wrong, Correctness.Misplaced,
         Correctness.Misplaced, Correctness.Wrong] →
      Guess.matchesWord ⟨[99, 99, 97, 97, 99],
          [Correctness.Wrong, Correctness.Wrong, Correctness.Misplaced,
           Correctness.Misplaced, Correctness.Wrong]⟩ [97, 97, 98, 98, 98] = false) :=
  claim_C1_matches_iff_compute [99, 99, 97, 97, 99] [97, 97, 98, 98, 98]
    [Correctness.Wrong, Correctness.Wrong, Correctness.Misplaced,
     Correctness.Misplaced, Correctness.Wrong]
    (by decide) (by decide) (by decide) (by decide) (by decide)

/-! Section: `PackedCorrectness` (`src/lib.rs`), packing a mask into a `u16`.

`PackedCorrectness::from` folds the mask into a base-3 number with checked
`u16` arithmetic (`Correct ↦ 0`, `Misplaced ↦ 1`, `Wrong ↦ 2`, most
significant position first), then stores the value plus one in a
`NonZeroU16`.  `none` models the panic paths (`checked_mul` failure and
`NonZeroU16::new(..).unwrap()` on zero); `u16` values are `Nat`s reduced
`% 65536` where the source arithmetic can wrap. -/

namespace Correctness

/-- The numeric value the source's `match` assigns to each variant. -/
def correctnessValue : Correctness → Nat
  | Correctness.Correct => 0
  | Correctness.Misplaced => 1
  | Correctness.Wrong => 2

/-- The fold inside `PackedCorrectness::from`: multiply the accumulator by 3
with `u16::checked_mul` (`none` = panic on overflow) and add the variant
value (plain `u16` addition, reduced mod `2^16`). -/
def packedFold (c : List Correctness) : Option Nat :=
  c.foldl
    (fun acc x => acc.bind (fun a =>
      if 3 * a ≤ 65535 then some ((3 * a + correctnessValue x) % 65536) else none))
    (some 0)

/-- Model of `PackedCorrectness::from` followed by the stored `NonZeroU16` value:
`NonZeroU16::new(packed + 1).unwrap()`, with `none` for either panic. -/
def packedCorrectness (c : List Correctness) : Option Nat :=
  (packedFold c).bind (fun packed =>
    if (packed + 1) % 65536 = 0 then none else some ((packed + 1) % 65536))

/-- Model of `impl From<PackedCorrectness> for u16`: `this.0.get() - 1`, composed
with the packing; the claimed bijection `[Correctness; 5] → [0, 243)`. -/
def packMask (c : List Correctness) : Option Nat :=
  (packedCorrectness c).map (fun v => v - 1)

/-- The same fold without the checks (plain ℕ base-3 value of the mask). -/
def val3 (c : List Correctness) : Nat :=
  c.foldl (fun a x => 3 * a + correctnessValue x) 0

/-- The inverse enumeration of 5-element masks from an index below 243,
most significant base-3 digit first. -/
def unpackMask (v : Nat) : List Correctness :=
  [v / 81 % 3, v / 27 % 3, v / 9 % 3, v / 3 % 3, v % 3].map
    (fun d => if d = 0 then Correctness.Correct
      else if d = 1 then Correctness.Misplaced else Correctness.Wrong)

lemma correctnessValue_le (x : Correctness) : correctnessValue x ≤ 2 := by
  cases x <;> simp [correctnessValue]

/-- The checked fold agrees with the plain fold and stays below `3^n`
whenever the final value fits: generalized over the start accumulator. -/
lemma packedFold_go (c : List Correctness) :
    ∀ (a : Nat), (a + 1) * 3 ^ c.length ≤ 65536 →
      (c.foldl
          (fun acc x => acc.bind (fun a =>
            if 3 * a ≤ 65535 then some ((3 * a + correctnessValue x) % 65536) else none))
          (some a) =
        some (c.foldl (fun a x => 3 * a + correctnessValue x) a)) ∧
      c.foldl (fun a x => 3 * a + correctnessValue x) a < (a + 1) * 3 ^ c.length := by
  induction c with
  | nil =>
    intro a h
    refine ⟨rfl, ?_⟩
    simp only [List.foldl_nil, List.length_nil, pow_zero, mul_one]
    omega
  | cons x xs ih =>
    intro a h
    have hpow : 1 ≤ 3 ^ xs.length := Nat.one_le_pow _ _ (by norm_num)
    have hlen : (a + 1) * 3 ^ (x :: xs).length = (a + 1) * (3 ^ xs.length * 3) := by
      simp [List.length_cons, pow_succ]
    have hle : (3 * a + correctnessValue x + 1) * 3 ^ xs.length ≤ 65536 := by
      have hv := correctnessValue_le x
      calc (3 * a + correctnessValue x + 1) * 3 ^ xs.length
          ≤ (3 * a + 3) * 3 ^ xs.length := Nat.mul_le_mul_right _ (by omega)
        _ = (a + 1) * (3 ^ xs.length * 3) := by ring
        _ = (a + 1) * 3 ^ (x :: xs).length := hlen.symm
        _ ≤ 65536 := h
    have hx3 : 3 * a + 3 ≤ 65536 := by
      have hx : (a + 1) * 3 ≤ 65536 := by
        calc (a + 1) * 3 ≤ (a + 1) * (3 ^ xs.length * 3) :=
              Nat.mul_le_mul_left _ (by simpa using Nat.mul_le_mul_right 3 hpow)
          _ = (a + 1) * 3 ^ (x :: xs).length := hlen.symm
          _ ≤ 65536 := h
      omega
    have hmul : 3 * a ≤ 65535 := by omega
    have hmod : (3 * a + correctnessValue x) % 65536 = 3 * a + correctnessValue x := by
      apply Nat.mod_eq_of_lt
      have := correctnessValue_le x
      omega
    obtain ⟨ih1, ih2⟩ := ih (3 * a + correctnessValue x) hle
    constructor
    · rw [List.foldl_cons, List.foldl_cons]
      have hstep : ((some a).bind (fun a =>
          if 3 * a ≤ 65535 then some ((3 * a + correctnessValue x) % 65536) else none)) =
          some (3 * a + correctnessValue x) := by
        simp [if_pos hmul, hmod]
      rw [hstep]
      exact ih1
    · rw [List.foldl_cons]
      calc List.foldl (fun a x => 3 * a + correctnessValue x)
            (3 * a + correctnessValue x) xs
          < (3 * a + correctnessValue x + 1) * 3 ^ xs.length := ih2
        _ ≤ (a + 1) * 3 ^ (x :: xs).length := by
            rw [hlen]
            have hv := correctnessValue_le x
            calc (3 * a + correctnessValue x + 1) * 3 ^ xs.length
                ≤ (3 * a + 3) * 3 ^ xs.length := Nat.mul_le_mul_right _ (by omega)
              _ = (a + 1) * (3 ^ xs.length * 3) := by ring

/-- Claim C10: For every correctness mask of length at most 5 (so in
particular every 5-element mask and every intermediate prefix of the
fold), the packing never panics: the checked multiplication succeeds, the
accumulator value stays at most 242, and for a full 5-element mask the
`NonZeroU16` construction from `packed + 1` succeeds. -/
theorem claim_C10_packing_no_panic (m : List Correctness) (h5 : m.length ≤ 5) :
    ∃ v, packedFold m = some v ∧ v ≤ 242 ∧
      (m.length = 5 → packedCorrectness m = some (v + 1) ∧ packMask m = some v) := by
  have hfit : (0 + 1) * 3 ^ m.length ≤ 65536 := by
    have : (3 : Nat) ^ m.length ≤ 3 ^ 5 := Nat.pow_le_pow_right (by norm_num) h5
    simpa using this.trans (by norm_num)
  obtain ⟨h1, h2⟩ := packedFold_go m 0 hfit
  have hpf : packedFold m = some (val3 m) := h1
  refine ⟨val3 m, hpf, ?_, ?_⟩
  · have : (3 : Nat) ^ m.length ≤ 243 := by
      calc (3 : Nat) ^ m.length ≤ 3 ^ 5 := Nat.pow_le_pow_right (by norm_num) h5
        _ = 243 := by norm_num
    have := h2
    simp only [zero_add, one_mul] at this
    unfold val3
    omega
  · intro _
    have hlt : val3 m ≤ 242 := by
      have h3 : (3 : Nat) ^ m.length ≤ 243 := by
        calc (3 : Nat) ^ m.length ≤ 3 ^ 5 := Nat.pow_le_pow_right (by norm_num) h5
          _ = 243 := by norm_num
      have := h2
      simp only [zero_add, one_mul] at this
      unfold val3
      omega
    have hmod : (val3 m + 1) % 65536 = val3 m + 1 := Nat.mod_eq_of_lt (by omega)
    constructor
    · simp only [packedCorrectness, hpf, Option.some_bind', hmod,
        if_neg (by omega : ¬(val3 m + 1 = 0))]
    · simp only [packMask, packedCorrectness, hpf, Option.some_bind', hmod,
        if_neg (by omega : ¬(val3 m + 1 = 0)), Option.map_some']
      simp

lemma correctnessValue_inj (x y : Correctness)
    (h : correctnessValue x = correctnessValue y) : x = y := by
  cases x <;> cases y <;> simp_all [correctnessValue]

/-- The packed value of a 5-element mask is its base-3 reading, `Correct = 0`,
`Misplaced = 1`, `Wrong = 2`, most significant position first. -/
lemma packMask_base3 :
    ∀ a b c d e : Correctness,
      packMask [a, b, c, d, e] =
        some (81 * correctnessValue a + 27 * correctnessValue b +
          9 * correctnessValue c + 3 * correctnessValue d + correctnessValue e) := by
  decide

set_option maxRecDepth 4000 in
set_option maxHeartbeats 1000000 in
/-- Claim C6: `PackedCorrectness` followed by the conversion back to
`u16` is a bijection between the `3^5 = 243` five-element masks and the
integers in `[0, 243)`: it reads the mask in base 3 (`Correct = 0`,
`Misplaced = 1`, `Wrong = 2`, most significant position first), lands in
`[0, 243)`, is injective, and every index below 243 is hit (by the mask
`unpackMask v`, so together with injectivity by exactly one mask). -/
theorem claim_C6_packed_bijection :
    (∀ a b c d e : Correctness,
      packMask [a, b, c, d, e] =
        some (81 * correctnessValue a + 27 * correctnessValue b +
          9 * correctnessValue c + 3 * correctnessValue d + correctnessValue e)) ∧
    (∀ a b c d e : Correctness, (packMask [a, b, c, d, e]).getD 243 < 243) ∧
    (∀ a b c d e a' b' c' d' e' : Correctness,
      packMask [a, b, c, d, e] = packMask [a', b', c', d', e'] →
      ([a, b, c, d, e] : List Correctness) = [a', b', c', d', e']) ∧
    (∀ v : Fin 243,
      (unpackMask v.val).length = 5 ∧ packMask (unpackMask v.val) = some v.val) := by
  refine ⟨packMask_base3, ?_, ?_, by decide⟩
  · intro a b c d e
    rw [packMask_base3 a b c d e]
    have h1 := correctnessValue_le a
    have h2 := correctnessValue_le b
    have h3 := correctnessValue_le c
    have h4 := correctnessValue_le d
    have h5 := correctnessValue_le e
    simp only [Option.getD_some]
    omega
  · intro a b c d e a' b' c' d' e' h
    rw [packMask_base3 a b c d e, packMask_base3 a' b' c' d' e'] at h
    have hv := Option.some.inj h
    have h1 := correctnessValue_le a
    have h2 := correctnessValue_le b
    have h3 := correctnessValue_le c
    have h4 := correctnessValue_le d
    have h5 := correctnessValue_le e
    have h6 := correctnessValue_le a'
    have h7 := correctnessValue_le b'
    have h8 := correctnessValue_le c'
    have h9 := correctnessValue_le d'
    have h10 := correctnessValue_le e'
    have ha : a = a' := correctnessValue_inj _ _ (by omega)
    have hb : b = b' := correctnessValue_inj _ _ (by omega)
    have hc : c = c' := correctnessValue_inj _ _ (by omega)
    have hd : d = d' := correctnessValue_inj _ _ (by omega)
    have he : e = e' := correctnessValue_inj _ _ (by omega)
    rw [ha, hb, hc, hd, he]

/-- Witness for C6: the bijection applied at the all-`Wrong` mask, whose
packed value is 242, discharging the injectivity hypothesis concretely. -/
theorem claim_C6_witness :
    ([Correctness.Wrong, Correctness.Wrong, Correctness.Wrong,
      Correctness.Wrong, Correctness.Wrong] : List Correctness) =
      [Correctness.Wrong, Correctness.Wrong, Correctness.Wrong,
       Correctness.Wrong, Correctness.Wrong] :=
  claim_C6_packed_bijection.2.2.1 Correctness.Wrong Correctness.Wrong
    Correctness.Wrong Correctness.Wrong Correctness.Wrong Correctness.Wrong
    Correctness.Wrong Correctness.Wrong Correctness.Wrong Correctness.Wrong rfl

/-- Witness for C10 at the all-`Wrong` mask (the largest packed value). -/
theorem claim_C10_witness :
    ∃ v, packedFold [Correctness.Wrong, Correctness.Wrong, Correctness.Wrong,
        Correctness.Wrong, Correctness.Wrong] = some v ∧ v ≤ 242 ∧
      ([Correctness.Wrong, Correctness.Wrong, Correctness.Wrong,
          Correctness.Wrong, Correctness.Wrong].length = 5 →
        packedCorrectness [Correctness.Wrong, Correctness.Wrong, Correctness.Wrong,
            Correctness.Wrong, Correctness.Wrong] = some (v + 1) ∧
        packMask [Correctness.Wrong, Correctness.Wrong, Correctness.Wrong,
            Correctness.Wrong, Correctness.Wrong] = some v) :=
  claim_C10_packing_no_panic
    [Correctness.Wrong, Correctness.Wrong, Correctness.Wrong,
     Correctness.Wrong, Correctness.Wrong] (by decide)

end Correctness

/-! Section: the `Escore` guesser (`src/algorithms/escore.rs`).

`f64` arithmetic is modelled over an arbitrary linear ordered field `R`
with the transcendental functions `ln`, `log2` and `exp` passed in as
uninterpreted functions, so every definition stays executable (witnesses
instantiate `R := ℚ`).  The Rust `Cow` wrappers on `remaining` and
`patterns` only manage sharing (`retain` on an owned pool and
`filter().collect()` on a borrowed one produce the same list), so the
state holds the plain lists. -/

/-- Source `src/lib.rs`: `pub const MAX_MASK_ENUM: usize = 3usize.pow(WORD_LENGTH)`. -/
def MAX_MASK_ENUM : Nat := 3 ^ WORD_LENGTH

/-- Source `src/lib.rs`: `static FIRST_GUESS: &str = "tares"` as its byte list. -/
def FIRST_GUESS : Word := [116, 97, 114, 101, 115]

/-- Modelled from the spec: `enumerate_mask` is used by `escore.rs` but its
definition is not under `src/`; per the spec it is the "dense integer in
`[0, 243)` encoding a CorrectnessMask via base-3 positional weighting",
i.e. the same base-3 reading as `PackedCorrectness`. -/
def enumerate_mask (c : List Correctness) : Nat := Correctness.val3 c

/-- Modelled from the spec: `Correctness::patterns()` (not under `src/`)
yields the complete fixed set of 243 canonical masks, "in the order that
is the exact inverse of `enumerate_mask`"; it fills the process-wide
`PATTERNS` cell when the first `Escore` is constructed. -/
def allPatterns : List (List Correctness) :=
  (List.range MAX_MASK_ENUM).map Correctness.unpackMask

namespace Escore

variable {R : Type} [LinearOrderedField R]

/-- Source `escore.rs`: `const L: f64 = 1.0`. -/
def L : R := 1

/-- Source `escore.rs`: `const K: f64 = 30000000.0` (cut-off steepness). -/
def K : R := 30000000

/-- Source `escore.rs`: `const X0: f64 = 0.00000497` (cut-off location). -/
def X0 : R := 0.00000497

/-- Model of `sigmoid(p) = L / (1.0 + (-K * (p - X0)).exp())` from `escore.rs`,
with `exp` passed in. -/
def sigmoid (expR : R → R) (p : R) : R := L / (1 + expR (-K * (p - X0)))

/-- Model of `est_steps_left(entropy) = (entropy * 3.264 + 4.834).ln()` from
`escore.rs`, with `ln` passed in. -/
def est_steps_left (lnR : R → R) (entropy : R) : R := lnR (entropy * 3.264 + 4.834)

/-- The state of one `Escore` instance: the candidate pool `remaining`
(word, squashed weight), the `patterns` list and the `entropy` diagnostic
log. -/
structure State (R : Type) where
  remaining : List (Word × R)
  patterns : List (List Correctness)
  entropy : List R
deriving DecidableEq

/-- The pool built by `Escore::new` from the dictionary entries
`(word, raw count)`: sum the raw counts, sort by descending raw count
(`sort_unstable_by_key(Reverse(count))`; tie order among equal counts is
unspecified in the source, modelled by a mergesort on the same key), then
store each word with weight `sigmoid(count / sum)`. -/
def initialPool (expR : R → R) (entries : List (Word × Nat)) : List (Word × R) :=
  let total : Nat := (entries.map Prod.snd).sum
  let sorted := entries.mergeSort (fun x y => decide (y.2 ≤ x.2))
  sorted.map (fun wc => (wc.1, sigmoid expR ((wc.2 : R) / (total : R))))

/-- Model of `Escore::new`: the initial pool, the 243 patterns, an empty log. -/
def new (expR : R → R) (entries : List (Word × Nat)) : State R :=
  { remaining := initialPool expR entries
    patterns := allPatterns
    entropy := [] }

/-- The pool after the opening `if let Some(last) = history.last()` block of
`Escore::guess`: with a non-empty history, keep exactly the entries whose
word still matches the latest guess; otherwise the pool is untouched. -/
def filteredPool (s : State R) (history : List Guess) : List (Word × R) :=
  match history.getLast? with
  | some last => s.remaining.filter (fun wc => last.matchesWord wc.1)
  | none => s.remaining

/-- Model of `remaining_p` in `Escore::guess`: the summed pool weights. -/
def remainingP (pool : List (Word × R)) : R := (pool.map Prod.snd).sum

/-- Model of `remaining_entropy` in `Escore::guess`: the pool's Shannon entropy,
`-Σ p log2 p` with `p` the normalized weight. -/
def remainingEntropy (log2R : R → R) (pool : List (Word × R)) : R :=
  -(pool.map (fun wc =>
      let p := wc.2 / remainingP pool
      p * log2R p)).sum

/-- The 243-slot accumulator loop inside `Escore::guess`:
`totals[enumerate_mask(&compute(candidate, word))] += count` over the pool,
starting from the all-zero array. -/
def totalsFold (pool : List (Word × R)) (word : Word) : Nat → R :=
  pool.foldl
    (fun t ac => fun j =>
      if j = enumerate_mask (Correctness.compute ac.1 word) then t j + ac.2 else t j)
    (fun _ => 0)

/-- The per-candidate score of `Escore::guess`: bucket the pool by mask,
sum `p log2 p` over the non-zero buckets, and combine
`e_score = p_word * score + (1 - p_word) * (score + est_steps_left (H - e_info))`. -/
def eScore (lnR log2R : R → R) (pool : List (Word × R))
    (remaining_p remaining_entropy score : R) (wc : Word × R) : R :=
  let totals := totalsFold pool wc.1
  let sum : R := ((((List.range MAX_MASK_ENUM).map totals).filter
      (fun t => decide (t ≠ 0))).map
    (fun p => p / remaining_p * log2R (p / remaining_p))).sum
  let p_word := wc.2 / remaining_p
  let e_info := -sum
  p_word * score + (1 - p_word) * (score + est_steps_left lnR (remaining_entropy - e_info))

/-- One step of the best-candidate tracking in `Escore::guess`: a candidate
replaces the incumbent only when its `e_score` is strictly smaller. -/
def stepBest (best : Option (Word × R)) (cand : Word × R) : Option (Word × R) :=
  match best with
  | some c => if cand.2 < c.2 then some cand else some c
  | none => some cand

/-- The candidates the loop of `Escore::guess` evaluates, paired with their
`e_score`s: exactly the first `stop = max(pool.len() / 3, 20)` pool entries
(the loop breaks once the counter `i` reaches `stop`). -/
def scoredList (lnR log2R : R → R) (pool : List (Word × R)) (score : R) :
    List (Word × R) :=
  (pool.take (max (pool.length / 3) 20)).map (fun wc =>
    (wc.1, eScore lnR log2R pool (remainingP pool)
      (remainingEntropy log2R pool) score wc))

/-- Model of `Escore::guess`; `none` models the panic paths — the
`assert!(!self.patterns.is_empty())` and the final `best.unwrap()`; the
`PATTERNS.get().unwrap()` of the empty-history branch cannot fail once an
`Escore` exists and is modelled by the initialized `allPatterns`.  The
loop interleaves computing each `e_score` and updating `best`; since the
score of a candidate does not depend on `best`, it is modelled as the
fold of `stepBest` over `scoredList`. -/
def guess (lnR log2R : R → R) (s : State R) (history : List Guess) :
    Option (Word × State R) :=
  let score : R := (history.length : R) + 1
  let remaining1 := filteredPool s history
  if history.isEmpty then
    some (FIRST_GUESS, { s with remaining := remaining1, patterns := allPatterns })
  else if s.patterns.isEmpty then
    none
  else
    let entropy1 := s.entropy ++ [remainingEntropy log2R remaining1]
    match (scoredList lnR log2R remaining1 score).foldl stepBest none with
    | some c => some (c.1, { s with remaining := remaining1, entropy := entropy1 })
    | none => none

/-- Equation for `guess` with its `let` bindings expanded, for case analysis. -/
lemma guess_spec (lnR log2R : R → R) (s : State R) (history : List Guess) :
    guess lnR log2R s history =
      (if history.isEmpty then
        some (FIRST_GUESS,
          { s with remaining := filteredPool s history, patterns := allPatterns })
      else if s.patterns.isEmpty then none
      else
        (match (scoredList lnR log2R (filteredPool s history)
            ((history.length : R) + 1)).foldl stepBest none with
        | some c => some (c.1,
            { remaining := filteredPool s history
              patterns := s.patterns
              entropy := s.entropy ++
                [remainingEntropy log2R (filteredPool s history)] })
        | none => none)) := rfl

/-- The fold of `stepBest` starting from an incumbent `b` returns the
earliest strict minimum of `b :: l`: everything before it scores strictly
higher, everything after it scores at least as high. -/
lemma foldl_stepBest_spec :
    ∀ (l : List (Word × R)) (b : Word × R),
      ∃ c l1 l2, l.foldl stepBest (some b) = some c ∧
        b :: l = l1 ++ c :: l2 ∧
        (∀ d ∈ l1, c.2 < d.2) ∧ (∀ d ∈ l2, c.2 ≤ d.2)
  | [], b => ⟨b, [], [], rfl, rfl, by simp, by simp⟩
  | d :: t, b => by
    by_cases hd : d.2 < b.2
    · have hstep : ((d :: t).foldl stepBest (some b) : Option (Word × R)) =
          t.foldl stepBest (some d) := by
        simp [List.foldl_cons, stepBest, hd]
      obtain ⟨c, l1, l2, hfold, hdec, hlt, hle⟩ := foldl_stepBest_spec t d
      cases l1 with
      | nil =>
        simp only [List.nil_append] at hdec
        injection hdec with hdc htl
        refine ⟨c, [b], l2, hstep.trans hfold, ?_, ?_, hle⟩
        · rw [← hdc, ← htl]
          rfl
        · intro x hx
          simp only [List.mem_singleton] at hx
          subst hx
          rw [← hdc]
          exact hd
      | cons x xs =>
        simp only [List.cons_append] at hdec
        injection hdec with hdc htl
        have hcd : c.2 < d.2 := by
          rw [hdc]
          exact hlt x (List.mem_cons_self x xs)
        refine ⟨c, b :: d :: xs, l2, hstep.trans hfold, ?_, ?_, hle⟩
        · rw [htl]
          rfl
        · intro y hy
          simp only [List.mem_cons] at hy
          rcases hy with rfl | rfl | hy
          · exact hcd.trans hd
          · exact hcd
          · refine hlt y (List.mem_cons_of_mem _ hy)
    · have hstep : ((d :: t).foldl stepBest (some b) : Option (Word × R)) =
          t.foldl stepBest (some b) := by
        simp [List.foldl_cons, stepBest, hd]
      obtain ⟨c, l1, l2, hfold, hdec, hlt, hle⟩ := foldl_stepBest_spec t b
      cases l1 with
      | nil =>
        simp only [List.nil_append] at hdec
        injection hdec with hbc htl
        refine ⟨c, [], d :: t, hstep.trans hfold, by rw [← hbc]; rfl, ?_, ?_⟩
        · simp
        · intro y hy
          simp only [List.mem_cons] at hy
          rcases hy with rfl | hy
          · rw [← hbc]
            exact le_of_not_lt hd
          · rw [htl] at hy
            exact hle y hy
      | cons x xs =>
        simp only [List.cons_append] at hdec
        injection hdec with hbx htl
        have hcb : c.2 < b.2 := by
          rw [hbx]
          exact hlt x (List.mem_cons_self x xs)
        refine ⟨c, b :: d :: xs, l2, hstep.trans hfold, ?_, ?_, hle⟩
        · rw [htl]
          rfl
        · intro y hy
          simp only [List.mem_cons] at hy
          rcases hy with rfl | rfl | hy
          · exact hcb
          · exact hcb.trans_le (le_of_not_lt hd)
          · refine hlt y (List.mem_cons_of_mem _ hy)

/-- The loop result is the earliest strict minimum of the whole list. -/
lemma foldl_stepBest_none (l : List (Word × R)) (c : Word × R)
    (h : l.foldl stepBest none = some c) :
    ∃ l1 l2, l = l1 ++ c :: l2 ∧
      (∀ d ∈ l1, c.2 < d.2) ∧ (∀ d ∈ l2, c.2 ≤ d.2) := by
  cases l with
  | nil => simp [List.foldl_nil] at h
  | cons x xs =>
    have hx : ((x :: xs).foldl stepBest none : Option (Word × R)) =
        xs.foldl stepBest (some x) := rfl
    rw [hx] at h
    obtain ⟨c', l1, l2, hfold, hdec, hlt, hle⟩ := foldl_stepBest_spec xs x
    rw [hfold] at h
    obtain rfl : c' = c := Option.some.inj h
    exact ⟨l1, l2, hdec, hlt, hle⟩

/-- Shared shape of a successful `guess` with non-empty history: the
returned word heads the earliest strict minimum of the scored prefix. -/
lemma guess_some_decomp (lnR log2R : R → R) (s : State R)
    (history : List Guess) (w : Word) (s' : State R)
    (hh : history ≠ []) (hres : guess lnR log2R s history = some (w, s')) :
    ∃ c l1 l2,
      scoredList lnR log2R (filteredPool s history) ((history.length : R) + 1) =
        l1 ++ c :: l2 ∧ w = c.1 ∧
      (∀ d ∈ l1, c.2 < d.2) ∧ (∀ d ∈ l2, c.2 ≤ d.2) := by
  rw [guess_spec] at hres
  have hh' : history.isEmpty = false := by
    cases history with
    | nil => exact absurd rfl hh
    | cons x xs => rfl
  rw [hh'] at hres
  simp only [Bool.false_eq_true, if_false] at hres
  by_cases hp : s.patterns.isEmpty
  · rw [if_pos hp] at hres
    exact absurd hres (by simp)
  · rw [if_neg hp] at hres
    cases hbest : (scoredList lnR log2R (filteredPool s history)
        ((history.length : R) + 1)).foldl stepBest none with
    | none => rw [hbest] at hres; exact absurd hres (by simp)
    | some c =>
      rw [hbest] at hres
      simp only [Option.some.injEq, Prod.mk.injEq] at hres
      obtain ⟨hw, _⟩ := hres
      obtain ⟨l1, l2, hdec, hlt, hle⟩ := foldl_stepBest_none _ c hbest
      exact ⟨c, l1, l2, hdec, hw.symm, hlt, hle⟩

/-- Specification side: the total pool weight that lands in mask bucket `i`
when guessing `c` — the sum of the weights of the pool entries whose mask
against `c` packs to `i`. -/
def bucketWeight (pool : List (Word × R)) (c : Word) (i : Nat) : R :=
  ((pool.filter (fun ac =>
      decide (enumerate_mask (Correctness.compute ac.1 c) = i))).map Prod.snd).sum

/-- Specification side: the Shannon entropy of the 243-bucket mask
distribution of candidate `c` over the pool (empty buckets contribute
nothing), with weights normalized by `W`. -/
def maskDistEntropy (log2R : R → R) (pool : List (Word × R)) (W : R) (c : Word) : R :=
  -((((List.range MAX_MASK_ENUM).map (bucketWeight pool c)).filter
      (fun t => decide (t ≠ 0))).map
    (fun p => p / W * log2R (p / W))).sum

/-- The running-total array equals the per-bucket grouped sum. -/
lemma totalsFold_go (c : Word) :
    ∀ (pool : List (Word × R)) (t : Nat → R) (i : Nat),
      (pool.foldl
        (fun t ac => fun j =>
          if j = enumerate_mask (Correctness.compute ac.1 c) then t j + ac.2 else t j)
        t) i = t i + bucketWeight pool c i
  | [], t, i => by simp [bucketWeight]
  | ac :: rest, t, i => by
    rw [List.foldl_cons, totalsFold_go c rest _ i]
    unfold bucketWeight
    by_cases hi : i = enumerate_mask (Correctness.compute ac.1 c)
    · rw [if_pos hi]
      rw [List.filter_cons_of_pos (by simpa using hi.symm)]
      simp only [List.map_cons, List.sum_cons]
      ring
    · rw [if_neg hi]
      rw [List.filter_cons_of_neg (by simpa using fun hx => hi hx.symm)]

lemma totalsFold_eq_bucketWeight (pool : List (Word × R)) (c : Word) (i : Nat) :
    totalsFold pool c i = bucketWeight pool c i := by
  unfold totalsFold
  rw [totalsFold_go c pool _ i]
  simp

/-- The code's per-candidate score coincides with the specification's
closed formula: `e_score = p_word * score + (1 - p_word) * (score +
ln((H - e_info) * 3.264 + 4.834))` with `e_info` the 243-bucket mask
distribution entropy. -/
lemma eScore_eq_spec (lnR log2R : R → R) (pool : List (Word × R))
    (remaining_p remaining_entropy score : R) (wc : Word × R) :
    eScore lnR log2R pool remaining_p remaining_entropy score wc =
      wc.2 / remaining_p * score + (1 - wc.2 / remaining_p) *
        (score + lnR ((remaining_entropy -
          maskDistEntropy log2R pool remaining_p wc.1) * 3.264 + 4.834)) := by
  have hmap : (List.range MAX_MASK_ENUM).map (totalsFold pool wc.1) =
      (List.range MAX_MASK_ENUM).map (bucketWeight pool wc.1) :=
    List.map_congr_left (fun i _ => totalsFold_eq_bucketWeight pool wc.1 i)
  simp only [eScore, est_steps_left, maskDistEntropy, hmap]

/-- Claim C3: For a non-empty history and non-empty pool, every
evaluated candidate is scored exactly as
`e_score = p_word * score + (1 - p_word) * (score + ln((H - e_info) * 3.264
+ 4.834))` where `score = |history| + 1`, `p_word = weight(c) / W`, `W` is
the summed pool weight, `H` the pool's Shannon entropy and `e_info` the
entropy of the candidate's 243-bucket mask distribution over the pool. -/
theorem claim_C3_score_formula (lnR log2R : R → R) (s : State R)
    (history : List Guess) (hh : history ≠ [])
    (hpool : filteredPool s history ≠ []) :
    scoredList lnR log2R (filteredPool s history) ((history.length : R) + 1) =
      ((filteredPool s history).take
          (max ((filteredPool s history).length / 3) 20)).map (fun wc =>
        (wc.1,
          wc.2 / remainingP (filteredPool s history) * ((history.length : R) + 1) +
            (1 - wc.2 / remainingP (filteredPool s history)) *
              (((history.length : R) + 1) +
                lnR ((remainingEntropy log2R (filteredPool s history) -
                  maskDistEntropy log2R (filteredPool s history)
                    (remainingP (filteredPool s history)) wc.1) * 3.264 + 4.834)))) := by
  unfold scoredList
  exact List.map_congr_left (fun wc _ => by rw [eScore_eq_spec])

/-- Claim C7: With an empty history `guess` returns the fixed opening
word `"tares"` immediately: the candidate pool and the entropy log are
left unchanged and the scored search is never entered (the returned state
differs from the input only in the shared `patterns` pointer). -/
theorem claim_C7_empty_history (lnR log2R : R → R) (s : State R) :
    guess lnR log2R s [] =
      some (FIRST_GUESS,
        { remaining := s.remaining
          patterns := allPatterns
          entropy := s.entropy }) ∧
    FIRST_GUESS = [116, 97, 114, 101, 115] :=
  ⟨rfl, rfl⟩

/-- Claim C8: Whenever `guess` returns, the new pool is exactly the
old pool filtered by the latest guess (the whole pool when the history is
empty): a sublist of the previous pool, in the original order, of
non-increasing length. -/
theorem claim_C8_pool_evolution (lnR log2R : R → R) (s : State R)
    (history : List Guess) (w : Word) (s' : State R)
    (hres : guess lnR log2R s history = some (w, s')) :
    s'.remaining = filteredPool s history ∧
    s'.remaining.Sublist s.remaining ∧
    s'.remaining.length ≤ s.remaining.length ∧
    (history = [] → s'.remaining = s.remaining) ∧
    ∀ last, history.getLast? = some last →
      s'.remaining = s.remaining.filter (fun wc => last.matchesWord wc.1) := by
  have hrem : s'.remaining = filteredPool s history := by
    rw [guess_spec] at hres
    by_cases hh : history.isEmpty
    · rw [if_pos hh] at hres
      simp only [Option.some.injEq, Prod.mk.injEq] at hres
      rw [← hres.2]
    · rw [if_neg hh] at hres
      by_cases hp : s.patterns.isEmpty
      · rw [if_pos hp] at hres
        exact absurd hres (by simp)
      · rw [if_neg hp] at hres
        cases hbest : (scoredList lnR log2R (filteredPool s history)
            ((history.length : R) + 1)).foldl stepBest none with
        | none => rw [hbest] at hres; exact absurd hres (by simp)
        | some c =>
          rw [hbest] at hres
          simp only [Option.some.injEq, Prod.mk.injEq] at hres
          rw [← hres.2]
  have hsub : (filteredPool s history).Sublist s.remaining := by
    unfold filteredPool
    cases history.getLast? with
    | none => exact List.Sublist.refl _
    | some last => exact List.filter_sublist _
  refine ⟨hrem, hrem ▸ hsub, hrem ▸ hsub.length_le, ?_, ?_⟩
  · intro hhist
    subst hhist
    exact hrem
  · intro last hlast
    rw [hrem]
    unfold filteredPool
    rw [hlast]

/-- Witness data for the `Escore` claims, over `R := ℚ` with `id` standing
in for the transcendental functions: a two-word pool, a one-guess history
whose feedback keeps only the second word. -/
def wordA : Word := [97, 97, 97, 97, 97]

def wordB : Word := [98, 98, 98, 98, 98]

def wordC : Word := [99, 99, 99, 99, 99]

def stateW : State ℚ :=
  { remaining := [(wordA, 1), (wordB, 1)], patterns := allPatterns, entropy := [] }

def histW : List Guess := [⟨wordA, Correctness.compute wordB wordA⟩]

/-- The pool left after `histW` filters `stateW`. -/
def poolW' : List (Word × ℚ) := [(wordB, 1)]

def stateW' : State ℚ :=
  { remaining := poolW', patterns := allPatterns,
    entropy := [remainingEntropy id poolW'] }

set_option maxRecDepth 4000 in
/-- Witness for C8: the concrete run `guess stateW histW`. -/
theorem claim_C8_witness :
    stateW'.remaining = filteredPool stateW histW ∧
    stateW'.remaining.Sublist stateW.remaining ∧
    stateW'.remaining.length ≤ stateW.remaining.length ∧
    (histW = [] → stateW'.remaining = stateW.remaining) ∧
    ∀ last, histW.getLast? = some last →
      stateW'.remaining = stateW.remaining.filter (fun wc => last.matchesWord wc.1) :=
  claim_C8_pool_evolution id id stateW histW wordB stateW' rfl

/-- Witness for C3 at the concrete pool and history of `stateW`. -/
theorem claim_C3_witness :
    scoredList id id (filteredPool stateW histW) ((histW.length : ℚ) + 1) =
      ((filteredPool stateW histW).take
          (max ((filteredPool stateW histW).length / 3) 20)).map (fun wc =>
        (wc.1,
          wc.2 / remainingP (filteredPool stateW histW) * ((histW.length : ℚ) + 1) +
            (1 - wc.2 / remainingP (filteredPool stateW histW)) *
              (((histW.length : ℚ) + 1) +
                id ((remainingEntropy id (filteredPool stateW histW) -
                  maskDistEntropy id (filteredPool stateW histW)
                    (remainingP (filteredPool stateW histW)) wc.1) * 3.264 + 4.834)))) :=
  claim_C3_score_formula id id stateW histW (by simp [histW])
    (by rw [show filteredPool stateW histW = poolW' from rfl]; simp [poolW'])


/-- Claim C2, amended: When filtering against the latest guess leaves
the candidate pool empty, `guess` does not return a word at all: the loop
never runs, `best` stays `None`, and `best.unwrap()` panics (modelled by
`none`).  No explicit "no consistent candidate" outcome exists in the
code. -/
theorem claim_C2_amended_empty_pool_panics (lnR log2R : R → R) (s : State R)
    (history : List Guess) (hh : history ≠ [])
    (hempty : filteredPool s history = []) :
    guess lnR log2R s history = none := by
  rw [guess_spec]
  have hh' : history.isEmpty = false := by
    cases history with
    | nil => exact absurd rfl hh
    | cons x xs => rfl
  rw [hh']
  simp only [Bool.false_eq_true, if_false]
  by_cases hp : s.patterns.isEmpty
  · rw [if_pos hp]
  · rw [if_neg hp, hempty]
    simp [scoredList]

/-- A single-word pool, and feedback claiming the latest guess `wordA` was
fully correct — inconsistent with every pool word. -/
def stateC : State ℚ :=
  { remaining := [(wordB, 1)], patterns := allPatterns, entropy := [] }

def stateC2 : State ℚ :=
  { remaining := [(wordB, 1), (wordC, 1)], patterns := allPatterns, entropy := [] }

def histC : List Guess :=
  [⟨wordA, [Correctness.Correct, Correctness.Correct, Correctness.Correct,
    Correctness.Correct, Correctness.Correct]⟩]

/-- Counterexample to C2 as stated: a concrete single-word pool whose sole
word is inconsistent with the feedback of the latest guess.  The guess
operation produces no outcome at all — it panics (`best.unwrap()` on
`None`, modelled by `none`) instead of surfacing an explicit, named
"no consistent candidate" outcome. -/
theorem claim_C2_counterexample : guess id id stateC histC = none := rfl

/-- Witness for the amended C2 on a two-word pool emptied by the feedback. -/
theorem claim_C2_witness : guess id id stateC2 histC = none :=
  claim_C2_amended_empty_pool_panics id id stateC2 histC (by simp [histC]) rfl

/-- Claim C4: With a non-empty history any word `guess` returns comes
from the first `max(poolSize / 3, 20)` entries of the filtered pool, taken
in the pool's stored order (and the model is a total function, so the
computation always terminates). -/
theorem claim_C4_cutoff_prefix (lnR log2R : R → R) (s : State R)
    (history : List Guess) (w : Word) (s' : State R)
    (hh : history ≠ []) (hres : guess lnR log2R s history = some (w, s')) :
    w ∈ ((filteredPool s history).take
      (max ((filteredPool s history).length / 3) 20)).map Prod.fst := by
  obtain ⟨c, l1, l2, hdec, hw, _, _⟩ :=
    guess_some_decomp lnR log2R s history w s' hh hres
  have hc : c ∈ scoredList lnR log2R (filteredPool s history)
      ((history.length : R) + 1) := by
    rw [hdec]
    exact List.mem_append_right _ (List.mem_cons_self _ _)
  unfold scoredList at hc
  obtain ⟨wc, hwc, hceq⟩ := List.mem_map.1 hc
  rw [hw, ← hceq]
  exact List.mem_map.2 ⟨wc, hwc, rfl⟩

/-- Witness for C4: the concrete run `guess stateW histW` returns a word of
the evaluated prefix. -/
theorem claim_C4_witness :
    wordB ∈ ((filteredPool stateW histW).take
      (max ((filteredPool stateW histW).length / 3) 20)).map Prod.fst :=
  claim_C4_cutoff_prefix id id stateW histW wordB stateW' (by simp [histW]) rfl

/-- Claim C5: With a non-empty history the returned word is the
first-seen candidate achieving the minimum `e_score` over the evaluated
prefix: every earlier-scored candidate is strictly worse and every later
one no better, so ties keep the earliest-iterated candidate and the
output is deterministic. -/
theorem claim_C5_first_strict_min (lnR log2R : R → R) (s : State R)
    (history : List Guess) (w : Word) (s' : State R)
    (hh : history ≠ []) (hres : guess lnR log2R s history = some (w, s')) :
    ∃ c l1 l2,
      scoredList lnR log2R (filteredPool s history) ((history.length : R) + 1) =
        l1 ++ c :: l2 ∧ w = c.1 ∧
      (∀ d ∈ l1, c.2 < d.2) ∧ (∀ d ∈ l2, c.2 ≤ d.2) :=
  guess_some_decomp lnR log2R s history w s' hh hres

/-- Witness for C5, at the concrete run `guess stateW histW`. -/
theorem claim_C5_witness :
    ∃ c l1 l2,
      scoredList id id (filteredPool stateW histW)
          ((histW.length : ℚ) + 1) = l1 ++ c :: l2 ∧ wordB = c.1 ∧
      (∀ d ∈ l1, c.2 < d.2) ∧ (∀ d ∈ l2, c.2 ≤ d.2) :=
  claim_C5_first_strict_min id id stateW histW wordB stateW' (by simp [histW]) rfl

/-- Claim C9: The initial pool stores, for each dictionary word with
raw count `c`, the weight `sigmoid(c / Σ counts)` where
`sigmoid(p) = L / (1 + exp(-K * (p - X0)))` with the fixed constants
`L = 1`, `K = 3×10^7` and `X0 = 0.00000497 = 497/10^8`, and its entries
are ordered by descending raw count (not by the squashed weight): the
pool is the image, under the weight map, of a permutation of the entries
that is sorted by descending raw count. -/
theorem claim_C9_initial_pool (expR : R → R) (entries : List (Word × Nat)) :
    ∃ es : List (Word × Nat),
      es.Perm entries ∧
      List.Pairwise (fun x y => y.2 ≤ x.2) es ∧
      initialPool expR entries = es.map (fun wc =>
        (wc.1, (1 : R) / (1 + expR (-(30000000 : R) *
          ((wc.2 : R) / (((entries.map Prod.snd).sum : Nat) : R) -
            497 / 100000000))))) := by
  refine ⟨entries.mergeSort (fun x y => decide (y.2 ≤ x.2)),
    List.mergeSort_perm entries _, ?_, ?_⟩
  · have hs : List.Pairwise
        (fun a b : Word × Nat => decide (b.2 ≤ a.2) = true)
        (entries.mergeSort (fun x y => decide (y.2 ≤ x.2))) :=
      List.sorted_mergeSort
        (fun a b c h1 h2 => by
          simp only [decide_eq_true_eq] at *
          omega)
        (fun a b => by simpa using Nat.le_total b.2 a.2)
        entries
    exact hs.imp (fun h => by simpa using h)
  · simp only [initialPool]
    refine List.map_congr_left (fun wc _ => ?_)
    simp only [sigmoid, L, K, X0]
    norm_num

end Escore

end Roget
